import Mathlib

/-!
Shallow embedding of the `sstweek` storage engine (src/sstweek/main.rs): a
log-structured key-value store with a WAL, an in-memory memtable, immutable
SSTables with a sparse index, and an engine tying them together.  Keys and
values are byte sequences, modelled as `List Nat`; file contents are modelled
explicitly (the data file as its byte list, the WAL as its decoded record
list); machine-integer truncation (`len as u32`) is modelled with `% 2 ^ 32`
via 4-byte big-endian encoding.  A Rust panic (the `usize` underflow in the
floor search, or the index-out-of-bounds access it causes in release builds)
is modelled as the explicit outcome `GetResult.panic`; an I/O or decode error
propagated with `?` is `GetResult.readError` / `Except.error`.
-/

namespace NullDb

/-- Keys and values are arbitrary byte sequences (`Vec<u8>`). -/
abbrev Bytes := List Nat

/-- Byte-lexicographic comparison, as Rust's `Ord` on `&[u8]`/`Vec<u8>`:
elementwise on `u8`, with a shorter strict prefix comparing less. -/
def bytesCmp : Bytes → Bytes → Ordering
  | [], [] => Ordering.eq
  | [], _ :: _ => Ordering.lt
  | _ :: _, [] => Ordering.gt
  | a :: as, b :: bs =>
      if a < b then Ordering.lt
      else if b < a then Ordering.gt
      else bytesCmp as bs

theorem bytesCmp_eq_iff : ∀ a b : Bytes, bytesCmp a b = Ordering.eq ↔ a = b := by
  intro a
  induction a with
  | nil => intro b; cases b <;> simp [bytesCmp]
  | cons x as ih =>
      intro b
      cases b with
      | nil => simp [bytesCmp]
      | cons y bs =>
          by_cases hxy : x < y
          · simp [bytesCmp, hxy]
            intro h; omega
          · by_cases hyx : y < x
            · simp [bytesCmp, hxy, hyx]
              intro h; omega
            · have hxy' : x = y := by omega
              simp [bytesCmp, hxy, hyx, hxy', ih bs]

theorem bytesCmp_ne_eq_of_ne {a b : Bytes} (h : a ≠ b) : bytesCmp a b ≠ Ordering.eq := by
  intro hc; exact h ((bytesCmp_eq_iff a b).mp hc)

/-- One WAL record (`struct Put { key, value }`). -/
structure Put where
  key : Bytes
  value : Bytes
deriving DecidableEq

/-- Outcome of a lookup, making the Rust control flow explicit:
`found`/`absent` are `Ok(Some _)`/`Ok(None)`, `readError` is an `Err(_)`
propagated with `?`, and `panic` is a Rust panic (integer underflow in debug
builds, slice index out of bounds in release builds). -/
inductive GetResult where
  | panic : GetResult
  | readError : GetResult
  | found : Bytes → GetResult
  | absent : GetResult
deriving DecidableEq

/-- Big-endian 4-byte encoding of `n as u32`, as `write_u32` emits
(truncation of `len as u32` is the drop of the higher bytes). -/
def u32be (n : Nat) : Bytes :=
  [n / 2 ^ 24 % 256, n / 2 ^ 16 % 256, n / 2 ^ 8 % 256, n % 256]

/-- One record of the SSTable data file: 4-byte big-endian key length, the
key bytes, 4-byte big-endian value length, the value bytes, no padding. -/
def encRecord (kv : Bytes × Bytes) : Bytes :=
  u32be kv.1.length ++ kv.1 ++ u32be kv.2.length ++ kv.2

theorem length_u32be (n : Nat) : (u32be n).length = 4 := rfl

theorem length_encRecord (kv : Bytes × Bytes) :
    (encRecord kv).length = 4 + kv.1.length + 4 + kv.2.length := by
  simp [encRecord, length_u32be]; omega

/-! ## Memtable

`BTreeMap<Vec<u8>, Vec<u8>>` is modelled as an association list kept sorted
ascending by `bytesCmp`; `insert` replaces the value of an equal key, and
iteration order (`into_iter`) is the list order. -/

/-- `BTreeMap::insert`: place the pair at its ordered position, replacing an
entry whose key compares equal. -/
def mtInsert (key value : Bytes) : List (Bytes × Bytes) → List (Bytes × Bytes)
  | [] => [(key, value)]
  | (k, v) :: rest =>
      match bytesCmp key k with
      | Ordering.lt => (key, value) :: (k, v) :: rest
      | Ordering.eq => (key, value) :: rest
      | Ordering.gt => (k, v) :: mtInsert key value rest

/-- `BTreeMap::get`. -/
def mtLookup (key : Bytes) : List (Bytes × Bytes) → Option Bytes
  | [] => none
  | (k, v) :: rest => if k = key then some v else mtLookup key rest

theorem mtLookup_mtInsert (m : List (Bytes × Bytes)) (k v key : Bytes) :
    mtLookup key (mtInsert k v m) = if key = k then some v else mtLookup key m := by
  induction m with
  | nil =>
      by_cases h : key = k
      · subst h; simp [mtInsert, mtLookup]
      · have h' : ¬ k = key := fun hh => h hh.symm
        simp [mtInsert, mtLookup, h, h']
  | cons kv rest ih =>
      obtain ⟨k', v'⟩ := kv
      rcases hc : bytesCmp k k' with _ | _ | _
      · -- k sorts strictly before k': new entry is consed in front
        by_cases h : key = k
        · subst h; simp [mtInsert, hc, mtLookup]
        · have h' : ¬ k = key := fun hh => h hh.symm
          simp [mtInsert, hc, mtLookup, h, h']
      · -- equal keys: the entry is replaced
        have hk : k = k' := (bytesCmp_eq_iff k k').mp hc
        subst hk
        by_cases h : key = k
        · subst h; simp [mtInsert, hc, mtLookup]
        · have h' : ¬ k = key := fun hh => h hh.symm
          simp [mtInsert, hc, mtLookup, h, h']
      · -- k sorts after k': keep head, insert into the tail
        have hk : ¬ k = k' := by
          intro hh; rw [hh] at hc
          have := (bytesCmp_eq_iff k' k').mpr rfl
          rw [this] at hc; cases hc
        by_cases h : key = k
        · subst h
          have h2 : ¬ k' = key := fun hh => hk (hh.symm)
          simp [mtInsert, hc, mtLookup, h2, ih]
        · by_cases h2 : k' = key
          · subst h2
            simp [mtInsert, hc, mtLookup, h]
          · simp [mtInsert, hc, mtLookup, h2, ih, h]


/-- The in-memory buffer of un-flushed writes (`struct Memtable`). -/
structure Memtable where
  data : List (Bytes × Bytes)
deriving DecidableEq

/-- `Memtable::put`: `self.data.insert(key, value)`. -/
def Memtable.put (m : Memtable) (key value : Bytes) : Memtable :=
  ⟨mtInsert key value m.data⟩

/-- `Memtable::get` (the `Queryable` impl): `self.data.get(key).cloned()`. -/
def Memtable.get (m : Memtable) (key : Bytes) : Option Bytes :=
  mtLookup key m.data

/-- The memtable obtained by applying a sequence of puts, in order, to the
empty memtable. -/
def Memtable.ofPuts (ps : List Put) : Memtable :=
  ps.foldl (fun m p => m.put p.key p.value) ⟨[]⟩

/-- `Memtable::drain` for flush: `BTreeMap::into_iter` yields the entries
ascending by key, which is this model's list order. -/
def Memtable.drain (m : Memtable) : List (Bytes × Bytes) :=
  m.data

/-- Replay loop of `Memtable::hydrate`: decode each line in file order and
insert it; a line that fails to decode aborts the whole replay with the
`?`-propagated error, whatever its position. -/
def hydrateGo {α : Type} (dec : α → Option Put) :
    List (Bytes × Bytes) → List α → Except Unit (List (Bytes × Bytes))
  | acc, [] => Except.ok acc
  | acc, line :: rest =>
      match dec line with
      | none => Except.error ()
      | some p => hydrateGo dec (mtInsert p.key p.value acc) rest

/-- `Memtable::hydrate`: rebuild a memtable from the log's lines.  The
line type `α` and the decoder stand for the external serde codec; a
well-formed line decodes to `some` record. -/
def Memtable.hydrate {α : Type} (dec : α → Option Put) (lines : List α) :
    Except Unit Memtable :=
  match hydrateGo dec [] lines with
  | Except.error e => Except.error e
  | Except.ok data => Except.ok ⟨data⟩

theorem hydrateGo_error_of_mem_none {α : Type} (dec : α → Option Put) :
    ∀ (lines : List α) (acc : List (Bytes × Bytes)),
      (∃ l ∈ lines, dec l = none) → hydrateGo dec acc lines = Except.error () := by
  intro lines
  induction lines with
  | nil => intro acc h; obtain ⟨l, hl, _⟩ := h; cases hl
  | cons x rest ih =>
      intro acc h
      cases hx : dec x with
      | none => simp [hydrateGo, hx]
      | some p =>
          obtain ⟨l, hl, hdl⟩ := h
          rcases List.mem_cons.mp hl with hlx | hlr
          · rw [hlx] at hdl; rw [hdl] at hx; cases hx
          · simp [hydrateGo, hx]
            exact ih _ ⟨l, hlr, hdl⟩

theorem hydrateGo_ok_of_all_some {α : Type} (dec : α → Option Put) :
    ∀ (lines : List α) (acc : List (Bytes × Bytes)),
      (∀ l ∈ lines, dec l ≠ none) →
      hydrateGo dec acc lines =
        Except.ok ((lines.filterMap dec).foldl (fun d p => mtInsert p.key p.value d) acc) := by
  intro lines
  induction lines with
  | nil => intro acc _; simp [hydrateGo]
  | cons x rest ih =>
      intro acc h
      cases hx : dec x with
      | none => exact absurd hx (h x (List.mem_cons_self x rest))
      | some p =>
          simp only [hydrateGo, hx, List.filterMap_cons, List.foldl_cons]
          exact ih _ (fun l hl => h l (List.mem_cons_of_mem x hl))

theorem hydrateGo_map_enc {α : Type} (enc : Put → α) (dec : α → Option Put)
    (hrt : ∀ p, dec (enc p) = some p) :
    ∀ (ps : List Put) (acc : List (Bytes × Bytes)),
      hydrateGo dec acc (ps.map enc) =
        Except.ok ((ps.foldl (fun m p => m.put p.key p.value) ⟨acc⟩ : Memtable).data) := by
  intro ps
  induction ps with
  | nil => intro acc; simp [hydrateGo]
  | cons p rest ih =>
      intro acc
      simp only [List.map_cons, hydrateGo, hrt p, List.foldl_cons]
      exact ih _

theorem mtLookup_foldl_put :
    ∀ (ps : List Put) (m : List (Bytes × Bytes)) (key : Bytes),
      mtLookup key ((ps.foldl (fun m p => m.put p.key p.value) (⟨m⟩ : Memtable)).data) =
        ps.foldl (fun acc p => if p.key = key then some p.value else acc) (mtLookup key m) := by
  intro ps
  induction ps with
  | nil => intro m key; rfl
  | cons p rest ih =>
      intro m key
      simp only [List.foldl_cons]
      rw [show (Memtable.put ⟨m⟩ p.key p.value) = (⟨mtInsert p.key p.value m⟩ : Memtable) from rfl]
      rw [ih]
      congr 1
      rw [mtLookup_mtInsert]
      by_cases h : p.key = key
      · subst h; simp
      · have h' : ¬ key = p.key := fun hh => h hh.symm
        simp [h, h']

/-! ## SSTable construction

`SSTable::construct` writes three files.  The durable effects are recorded
as an ordered event trace: one `writeData` per record written to the data
file, then the data file's buffer flush and fsync, then the index file's
write and fsync, then the descriptor (meta) file's write.  Paths are lists
of components (`PathBuf`); `dir.join(format!("{}.sst", now))` is
`dir ++ [toString now ++ ".sst"]`. -/

/-- A durable file-system effect of `SSTable::construct`, in program order. -/
inductive FsEvent where
  | writeData : FsEvent
  | flushData : FsEvent
  | syncData : FsEvent
  | writeIndex : FsEvent
  | syncIndex : FsEvent
  | writeMeta : FsEvent
  | syncMeta : FsEvent
deriving DecidableEq

/-- `struct SSTableMetadata`: the descriptor contents. -/
structure SSTableMetadata where
  written_timestamp : Nat
  meta_path : List String
  data_path : List String
  index_path : List String
deriving DecidableEq

/-- An opened `SSTable`: its descriptor, the resident sparse index
(key, byte offset pairs), and the data file's contents. -/
structure SSTable where
  meta : SSTableMetadata
  index : List (Bytes × Nat)
  data : Bytes
deriving DecidableEq

/-- The mutable state of `construct`'s write loop: current byte offset of
the data file, the enumeration counter `i`, the in-memory index, the data
file's bytes so far, and the effect trace so far. -/
structure ConstructState where
  offset : Nat
  count : Nat
  index : List (Bytes × Nat)
  bytes : Bytes
  events : List FsEvent
deriving DecidableEq

/-- The `for (i, (key, value)) in data.enumerate()` loop of
`SSTable::construct`: capture the offset before the record is written,
write the length-prefixed record, and sample an index entry when
`i % 16 == 0`. -/
def constructLoop : List (Bytes × Bytes) → ConstructState → ConstructState
  | [], st => st
  | kv :: rest, st =>
      constructLoop rest
        { offset := st.offset + (encRecord kv).length
          count := st.count + 1
          index := if st.count % 16 = 0 then st.index ++ [(kv.1, st.offset)] else st.index
          bytes := st.bytes ++ encRecord kv
          events := st.events ++ [FsEvent.writeData] }

/-- `SSTable::construct(dir, data)` at creation timestamp `now`: run the
write loop from an empty fresh data file, then flush and sync the data
file, write and sync the index file, and write the descriptor file (which
the source never syncs).  Returns the constructed table and the ordered
effect trace. -/
def SSTable.construct (dir : List String) (now : Nat) (data : List (Bytes × Bytes)) :
    SSTable × List FsEvent :=
  let data_path := dir ++ [toString now ++ ".sst"]
  let index_path := dir ++ [toString now ++ ".idx"]
  let st := constructLoop data ⟨0, 0, [], [], []⟩
  let meta_path := dir ++ [toString now ++ ".meta"]
  ({ meta := { written_timestamp := now, meta_path := meta_path,
               data_path := data_path, index_path := index_path }
     index := st.index
     data := st.bytes },
   st.events ++ [FsEvent.flushData, FsEvent.syncData, FsEvent.writeIndex,
                 FsEvent.syncIndex, FsEvent.writeMeta])

/-- The sparse index `construct` builds for a record list. -/
def constructIndex (data : List (Bytes × Bytes)) : List (Bytes × Nat) :=
  (constructLoop data ⟨0, 0, [], [], []⟩).index

/-- Byte offset at which record `n` starts in the data file: the total
size of the records before it. -/
def recordOffset (data : List (Bytes × Bytes)) (n : Nat) : Nat :=
  ((data.take n).map fun kv => (encRecord kv).length).sum

/-- Specification-side description of the sampled index, starting at
enumeration counter `i` and byte offset `off`: the records at positions
`n` with `(i + n) % 16 = 0`, each paired with the byte offset of its
start. -/
def specIndexFrom (i off : Nat) (data : List (Bytes × Bytes)) : List (Bytes × Nat) :=
  (List.range data.length).filterMap fun n =>
    if (i + n) % 16 = 0 then some ((data.getD n ([], [])).1, off + recordOffset data n)
    else none

/-- Specification-side description of the full index: every 16th record
(0-indexed), its key and the byte offset of its start. -/
def specIndex (data : List (Bytes × Bytes)) : List (Bytes × Nat) :=
  specIndexFrom 0 0 data

theorem specIndexFrom_cons (i off : Nat) (kv : Bytes × Bytes) (rest : List (Bytes × Bytes)) :
    specIndexFrom i off (kv :: rest) =
      (if i % 16 = 0 then [(kv.1, off)] else []) ++
        specIndexFrom (i + 1) (off + (encRecord kv).length) rest := by
  have hfun :
      (fun n => if (i + (n + 1)) % 16 = 0 then
          some (((kv :: rest).getD (n + 1) ([], [])).1, off + recordOffset (kv :: rest) (n + 1))
        else none)
      = (fun n => if ((i + 1) + n) % 16 = 0 then
          some ((rest.getD n ([], [])).1, (off + (encRecord kv).length) + recordOffset rest n)
        else none) := by
    funext n
    have h1 : i + (n + 1) = (i + 1) + n := by omega
    have h2 : recordOffset (kv :: rest) (n + 1) = (encRecord kv).length + recordOffset rest n := by
      simp [recordOffset, List.take_succ_cons]
    have h3 : off + ((encRecord kv).length + recordOffset rest n)
        = (off + (encRecord kv).length) + recordOffset rest n := by omega
    rw [h1, List.getD_cons_succ, h2, h3]
  have hzero : recordOffset (kv :: rest) 0 = 0 := by simp [recordOffset]
  by_cases h : i % 16 = 0
  · simp only [specIndexFrom, List.length_cons, List.range_succ_eq_map,
      List.filterMap_cons, List.filterMap_map, Function.comp_def, hfun,
      Nat.add_zero, h, if_pos, List.getD_cons_zero, hzero]
    simp
  · simp only [specIndexFrom, List.length_cons, List.range_succ_eq_map,
      List.filterMap_cons, List.filterMap_map, Function.comp_def, hfun,
      Nat.add_zero, h, if_neg, List.getD_cons_zero, hzero]
    simp [h]

theorem constructLoop_index :
    ∀ (data : List (Bytes × Bytes)) (st : ConstructState),
      (constructLoop data st).index = st.index ++ specIndexFrom st.count st.offset data := by
  intro data
  induction data with
  | nil => intro st; simp [constructLoop, specIndexFrom]
  | cons kv rest ih =>
      intro st
      rw [constructLoop, ih, specIndexFrom_cons]
      by_cases h : st.count % 16 = 0
      · simp [h, List.append_assoc]
      · simp [h]

theorem constructLoop_bytes :
    ∀ (data : List (Bytes × Bytes)) (st : ConstructState),
      (constructLoop data st).bytes = st.bytes ++ (data.map encRecord).flatten := by
  intro data
  induction data with
  | nil => intro st; simp [constructLoop]
  | cons kv rest ih =>
      intro st
      rw [constructLoop, ih]
      simp [List.append_assoc]

theorem constructLoop_events :
    ∀ (data : List (Bytes × Bytes)) (st : ConstructState),
      (constructLoop data st).events = st.events ++ data.map (fun _ => FsEvent.writeData) := by
  intro data
  induction data with
  | nil => intro st; simp [constructLoop]
  | cons kv rest ih =>
      intro st
      rw [constructLoop, ih]
      simp [List.append_assoc]

theorem specIndexFrom_keys_sublist :
    ∀ (data : List (Bytes × Bytes)) (i off : Nat),
      ((specIndexFrom i off data).map Prod.fst).Sublist (data.map Prod.fst) := by
  intro data
  induction data with
  | nil => intro i off; simp [specIndexFrom]
  | cons kv rest ih =>
      intro i off
      rw [specIndexFrom_cons]
      by_cases h : i % 16 = 0
      · simpa [h] using List.Sublist.cons₂ kv.1 (ih (i + 1) (off + (encRecord kv).length))
      · simpa [h] using List.Sublist.cons kv.1 (ih (i + 1) (off + (encRecord kv).length))

/-! ## SSTable point lookup

`SSTable::get` runs `self.index.binary_search_by(|(k, _)| k.cmp(key))`,
takes the found position or the insertion point, and subtracts 1 from it
as a `usize`.  When that position is 0 the subtraction underflows — a
panic in debug builds, and in release builds the wrapped value indexes
`self.index` out of bounds, also a panic.  The model makes this outcome
explicit as `GetResult.panic`.  Otherwise it seeks to the recorded offset
and sequentially decodes length-prefixed records until a hit, a greater
key, or end of file. -/

/-- Core loop of Rust's slice `binary_search_by` over the index, with the
probe compared to the target by `k.cmp(key)`.  `Sum.inl i` is `Ok(i)` (a
match at `i`), `Sum.inr i` is `Err(i)` (the insertion point).  Fuel only
bounds the iteration count; `binarySearchIdx` supplies enough for the
loop to finish. -/
def binSearchAux (index : List (Bytes × Nat)) (key : Bytes) :
    Nat → Nat → Nat → Sum Nat Nat
  | 0, left, _ => Sum.inr left
  | fuel + 1, left, right =>
      if left < right then
        let mid := left + (right - left) / 2
        match bytesCmp (index.getD mid ([], 0)).1 key with
        | Ordering.lt => binSearchAux index key fuel (mid + 1) right
        | Ordering.gt => binSearchAux index key fuel left mid
        | Ordering.eq => Sum.inl mid
      else Sum.inr left

/-- `self.index.binary_search_by(|(k, _)| k.as_slice().cmp(key))`. -/
def binarySearchIdx (index : List (Bytes × Nat)) (key : Bytes) : Sum Nat Nat :=
  binSearchAux index key (index.length + 1) 0 index.length

/-- Read exactly `len` bytes at `pos`; `none` is the I/O error `read_exact`
reports when the file ends early. -/
def readBytesAt (data : Bytes) (pos len : Nat) : Option Bytes :=
  if ((data.drop pos).take len).length = len then some ((data.drop pos).take len) else none

/-- `read_u32` at `pos`: 4 bytes, big-endian. -/
def readU32At (data : Bytes) (pos : Nat) : Option Nat :=
  match readBytesAt data pos 4 with
  | some [a, b, c, d] => some (((a * 256 + b) * 256 + c) * 256 + d)
  | _ => none

/-- The `while location < file_len` decode loop of `SSTable::get`: read a
length-prefixed record at `location`; return its value on a key match,
report absence once the decoded key exceeds the target (the data is
sorted) or at end of file; propagate a short read as an error. -/
def scanRecords (data : Bytes) (key : Bytes) : Nat → Nat → GetResult
  | 0, _ => GetResult.readError
  | fuel + 1, location =>
      if location < data.length then
        match readU32At data location with
        | none => GetResult.readError
        | some keyLen =>
          match readBytesAt data (location + 4) keyLen with
          | none => GetResult.readError
          | some currentKey =>
            match readU32At data (location + 4 + keyLen) with
            | none => GetResult.readError
            | some valueLen =>
              match readBytesAt data (location + 4 + keyLen + 4) valueLen with
              | none => GetResult.readError
              | some value =>
                if currentKey = key then GetResult.found value
                else if bytesCmp currentKey key = Ordering.gt then GetResult.absent
                else scanRecords data key fuel (location + 4 + keyLen + 4 + valueLen)
      else GetResult.absent

/-- `SSTable::get` (the `Queryable` impl): the floor search over the
in-memory index followed by the sequential scan.  `loc = 0` is the
`usize` underflow of `binary_search(...) - 1`. -/
def SSTable.get (sst : SSTable) (key : Bytes) : GetResult :=
  let loc := match binarySearchIdx sst.index key with
    | Sum.inl i => i
    | Sum.inr i => i
  if loc = 0 then GetResult.panic
  else scanRecords sst.data key (sst.data.length + 1) (sst.index.getD (loc - 1) ([], 0)).2

theorem getD_mem {α : Type} :
    ∀ (l : List α) (n : Nat) (d : α), n < l.length → l.getD n d ∈ l := by
  intro l
  induction l with
  | nil => intro n d h; simp at h
  | cons a as ih =>
      intro n d h
      cases n with
      | zero => simp [List.getD_cons_zero]
      | succ m =>
          rw [List.getD_cons_succ]
          exact List.mem_cons_of_mem a (ih m d (by simpa using h))

theorem binSearchAux_all_gt (index : List (Bytes × Nat)) (key : Bytes)
    (hall : ∀ e ∈ index, bytesCmp e.1 key = Ordering.gt) :
    ∀ (fuel left right : Nat), right ≤ index.length →
      binSearchAux index key fuel left right = Sum.inr left := by
  intro fuel
  induction fuel with
  | zero => intro left right _; rfl
  | succ fuel ih =>
      intro left right hr
      by_cases hlr : left < right
      · have hmid : left + (right - left) / 2 < index.length := by omega
        have hgt := hall _ (getD_mem index (left + (right - left) / 2) ([], 0) hmid)
        rw [binSearchAux, if_pos hlr]
        simp only [hgt]
        exact ih left (left + (right - left) / 2) (by omega)
      · rw [binSearchAux, if_neg hlr]

/-! ## Storage engine

`Db` composes the active WAL (identified by its path; a WAL file's contents
are modelled as its decoded record list), the memtable, the opened
SSTables, and the persisted `DbMeta`.  `DiskState` models what the engine
reads from disk at open: the optional `meta.json`, the WAL files, and the
result of `SSTable::open` per descriptor path.  Parse failures during
replay are the subject of the `Memtable.hydrate` theorems; the engine-level
model reads well-formed files. -/

/-- `struct DbMeta`: descriptor paths of the SSTables (as strings, oldest
first) and the active WAL path. -/
structure DbMeta where
  sstables : List String
  wal : List String
deriving DecidableEq

/-- The in-memory engine state (`struct Db`). -/
structure Db where
  dir : List String
  logPath : List String
  memtable : Memtable
  sstables : List SSTable
  meta : DbMeta
deriving DecidableEq

/-- Rendering of a path as the string `to_string_lossy` produces. -/
def pathToString (p : List String) : String :=
  String.intercalate "/" p

/-- What the engine can read from disk when opening: `meta.json` contents,
WAL file contents by path (an absent or fresh file is the empty list), and
the result of `SSTable::open` by descriptor path. -/
structure DiskState where
  dbMetaFile : Option DbMeta
  walFiles : List String → List Put
  sstFiles : String → Option SSTable

/-- Opening every SSTable named in the metadata; one failed open fails
`Db::new` (the `collect::<Result<Vec<_>, _>>()?`). -/
def openAll (sstFiles : String → Option SSTable) : List String → Option (List SSTable)
  | [] => some []
  | p :: rest =>
      match sstFiles p, openAll sstFiles rest with
      | some s, some l => some (s :: l)
      | _, _ => none

/-- Insertion step of sorting by the `Ord` impl on `SSTable`: descending
creation timestamp (newer sorts first). -/
def insertByTs (s : SSTable) : List SSTable → List SSTable
  | [] => [s]
  | t :: rest =>
      if s.meta.written_timestamp < t.meta.written_timestamp then t :: insertByTs s rest
      else s :: t :: rest

/-- `sstables.sort()`: totally ordered by descending `written_timestamp`.
With distinct timestamps any comparison sort gives this same list. -/
def sortSSTables (l : List SSTable) : List SSTable :=
  l.foldr insertByTs []

/-- `Db::new(db_dir)`: load `meta.json` if present, else default metadata
with no SSTables and WAL path `db_dir/log`; open the WAL at the literal
path `db_dir.join("log")` and hydrate the memtable from that file; open
every SSTable named in the metadata and sort them newest first. -/
def Db.new (db_dir : List String) (disk : DiskState) : Except Unit Db :=
  let meta : DbMeta :=
    match disk.dbMetaFile with
    | some m => m
    | none => { sstables := [], wal := db_dir ++ ["log"] }
  let logPath := db_dir ++ ["log"]
  let memtable := Memtable.ofPuts (disk.walFiles logPath)
  match openAll disk.sstFiles meta.sstables with
  | none => Except.error ()
  | some ssts =>
      Except.ok { dir := db_dir, logPath := logPath, memtable := memtable,
                  sstables := sortSSTables ssts, meta := meta }

/-- The `for sstable in &self.sstables` loop of `Db::get`: first hit wins,
and an error or panic in one lookup aborts the whole get. -/
def scanSSTables : List SSTable → Bytes → GetResult
  | [], _ => GetResult.absent
  | s :: rest, key =>
      match SSTable.get s key with
      | GetResult.panic => GetResult.panic
      | GetResult.readError => GetResult.readError
      | GetResult.found v => GetResult.found v
      | GetResult.absent => scanSSTables rest key

/-- `Db::get`: check the memtable first; on a miss scan the SSTable list
in order. -/
def Db.get (db : Db) (key : Bytes) : GetResult :=
  match db.memtable.get key with
  | some v => GetResult.found v
  | none => scanSSTables db.sstables key

/-- `Db::get_filename(prefix)` at time `now`. -/
def Db.get_filename (pre : String) (now : Nat) : String :=
  pre ++ "-" ++ toString now

/-- `Db::flush_memtable` at time `now`: take the memtable, construct an
SSTable from its drained entries under the literal directory `"db"`, open
a fresh log at `dir/log-now` (whose decoded contents are `freshLog`,
empty for a genuinely fresh file), append the new descriptor path and the
new WAL path to the metadata, and re-hydrate the memtable from the fresh
log.  The in-memory `sstables` list is left untouched, exactly as in the
source; the constructed SSTable is only returned. -/
def Db.flush_memtable (db : Db) (now : Nat) (freshLog : List Put) :
    Db × SSTable × List FsEvent :=
  let data := db.memtable
  let c := SSTable.construct ["db"] now data.drain
  let log_path := db.dir ++ [Db.get_filename "log" now]
  let new_meta : DbMeta :=
    { sstables := db.meta.sstables ++ [pathToString c.1.meta.meta_path]
      wal := log_path }
  ({ db with logPath := log_path, meta := new_meta, memtable := Memtable.ofPuts freshLog },
   c.1, c.2)

/-! ## Auxiliary facts shared by the claim theorems -/

theorem memtable_foldl_data :
    ∀ (ps : List Put) (acc : List (Bytes × Bytes)),
      ((ps.foldl (fun m p => m.put p.key p.value) (⟨acc⟩ : Memtable))).data
        = ps.foldl (fun d p => mtInsert p.key p.value d) acc := by
  intro ps
  induction ps with
  | nil => intro acc; rfl
  | cons p rest ih => intro acc; simp only [List.foldl_cons]; exact ih _

/-- Boolean subsequence test: does the first list occur, in order, inside
the second? -/
def isSubseqOf {α : Type} [DecidableEq α] : List α → List α → Bool
  | [], _ => true
  | _ :: _, [] => false
  | a :: as, b :: bs => if a = b then isSubseqOf as bs else isSubseqOf (a :: as) bs

/-- The durability ordering claimed for `SSTable::construct`: the trace
contains, in order, the data-file flush and sync, then the index write and
sync, then the descriptor write and a descriptor sync. -/
def claimedDurabilityOrder (tr : List FsEvent) : Bool :=
  isSubseqOf [FsEvent.flushData, FsEvent.syncData, FsEvent.writeIndex, FsEvent.syncIndex,
              FsEvent.writeMeta, FsEvent.syncMeta] tr

/-- Value of the chronologically last put for `key` in a put sequence. -/
def lastPutValue (ps : List Put) (key : Bytes) : Option Bytes :=
  ps.foldl (fun acc p => if p.key = key then some p.value else acc) none

/-! ## Concrete instances used by the claim theorems -/

/-- Identity decoder on already-decoded optional lines: a `some` line is
well formed, a `none` line is one that fails to parse. -/
def decOpt : Option Put → Option Put := fun l => l

/-- Key `keyNNN` of the spec's 100-record scenario, as ASCII bytes. -/
def mkKey (i : Nat) : Bytes :=
  [107, 101, 121, 48 + i / 100, 48 + i / 10 % 10, 48 + i % 10]

/-- 100 sorted records with keys `key000..key099`. -/
def records100 : List (Bytes × Bytes) :=
  (List.range 100).map fun i => (mkKey i, [i])

/-- An SSTable over the single record `[5] ↦ [7]`; its index is
`[([5], 0)]`, so any smaller target key qualifies no index entry. -/
def sstOne : SSTable := (SSTable.construct ["db"] 3 [([5], [7])]).1

/-- An SSTable over the single record `[1] ↦ [2]`. -/
def sstSingle : SSTable := (SSTable.construct ["db"] 1 [([1], [2])]).1

/-- The newer of two overlapping SSTables: timestamp 2, `[5] ↦ [10]`. -/
def sstNewer : SSTable := (SSTable.construct ["db"] 2 [([5], [10])]).1

/-- The older of two overlapping SSTables: timestamp 1, `[3] ↦ [7]` and
`[5] ↦ [9]`. -/
def sstOlder : SSTable := (SSTable.construct ["db"] 1 [([3], [7]), ([5], [9])]).1

/-- An engine whose memtable holds `[1] ↦ [2]` and whose SSTable list is
empty, as after `Db::new` on a fresh directory followed by one put. -/
def dbMemOnly : Db :=
  { dir := ["d"], logPath := ["d", "log"],
    memtable := Memtable.ofPuts [⟨[1], [2]⟩], sstables := [],
    meta := { sstables := [], wal := ["d", "log"] } }

/-- Disk contents after a flush at time 5 followed by `put([3],[4])` and a
close: the metadata records the rotated WAL `d/log-5` (holding the
post-flush put), while the pre-flush WAL `d/log` (holding `put([1],[2])`)
is still on disk. -/
def diskReopenSample : DiskState :=
  { dbMetaFile := some { sstables := [], wal := ["d", "log-5"] },
    walFiles := fun p =>
      if p = ["d", "log"] then [⟨[1], [2]⟩]
      else if p = ["d", "log-5"] then [⟨[3], [4]⟩]
      else [],
    sstFiles := fun _ => none }

/-- Disk contents naming two overlapping SSTables, older first in the
metadata (as flushed), with an empty WAL. -/
def diskTwoSSTables : DiskState :=
  { dbMetaFile := some { sstables := ["db/1.meta", "db/2.meta"], wal := ["d6", "log"] },
    walFiles := fun _ => [],
    sstFiles := fun p =>
      if p = "db/1.meta" then some sstOlder
      else if p = "db/2.meta" then some sstNewer
      else none }

/-- The effect trace of constructing an SSTable from one record. -/
def constructTraceSample : List FsEvent := (SSTable.construct ["db"] 3 [([1], [2])]).2

/-- Two puts to the same key, in order. -/
def putsSample : List Put := [⟨[1], [2]⟩, ⟨[1], [3]⟩]

/-! ## The claims -/

/-- C1: the spec requires that a `get` whose target key is smaller than
every indexed key scans from byte offset 0 and reports absence.  The code
instead computes `binary_search(...) - 1` on a `usize`: when every index
key compares greater than the target the search returns `Err(0)`, the
subtraction underflows, and the lookup panics (`GetResult.panic`) instead
of returning absence. -/
theorem get_below_index_panics :
    ∀ (sst : SSTable) (key : Bytes),
      (∀ e ∈ sst.index, bytesCmp e.1 key = Ordering.gt) →
      SSTable.get sst key = GetResult.panic := by
  intro sst key h
  have hb := binSearchAux_all_gt sst.index key h (sst.index.length + 1) 0
    sst.index.length (le_refl _)
  simp [SSTable.get, binarySearchIdx, hb]

/-- C1 witness: on the SSTable over `[5] ↦ [7]` (index `[([5], 0)]`),
looking up the smaller key `[3]` panics. -/
theorem get_below_index_panics_witness :
    SSTable.get sstOne [3] = GetResult.panic :=
  get_below_index_panics sstOne [3] (by decide)

/-- C2: the claim says flush installs the new SSTable at the front of the
in-memory list so that a flushed key stays visible.  In the code
`flush_memtable` never touches `self.sstables`: after flushing an engine
whose memtable held `[1] ↦ [2]`, the SSTable list is still empty and the
key has become invisible (`get` returns absence where it returned the
value before the flush). -/
theorem flush_drops_flushed_key :
    Db.get dbMemOnly [1] = GetResult.found [2]
    ∧ (dbMemOnly.flush_memtable 7 []).1.sstables = []
    ∧ Db.get (dbMemOnly.flush_memtable 7 []).1 [1] = GetResult.absent := by
  refine ⟨by decide, by decide, by decide⟩

/-- C3: the claim says `Db::new` opens the WAL at the path recorded in the
loaded metadata, so that after a reopen the active WAL is the last flush's
rotation target and all previously visible pairs stay visible.  The code
opens `db_dir.join("log")` unconditionally: reopening over metadata whose
recorded WAL is `d/log-5` (holding the post-flush `put([3],[4])`) yields an
engine whose active log path is `d/log`, whose `get [3]` is absent, and
which instead replays the stale pre-flush WAL `d/log`. -/
theorem reopen_ignores_recorded_wal_path :
    (Db.new ["d"] diskReopenSample).toOption.map
        (fun db => (db.logPath, db.meta.wal, Db.get db [3], Db.get db [1]))
      = some (["d", "log"], ["d", "log-5"], GetResult.absent, GetResult.found [2]) := by
  decide

/-- C4 counterexample: the claim says a parse failure on the last line is
silently dropped with the prior lines applied.  Replaying a log whose
second and last line fails to decode aborts with an error instead. -/
theorem torn_tail_line_aborts_replay :
    Memtable.hydrate decOpt [some ⟨[1], [2]⟩, none] = Except.error () := rfl

/-- C4 amended: during replay, a line that fails to parse aborts recovery
with an error whatever its position — last line included — and when every
line parses, replay applies all decoded records in file order. -/
theorem replay_aborts_on_any_parse_failure :
    ∀ {α : Type} (dec : α → Option Put) (lines : List α),
      ((∃ l ∈ lines, dec l = none) → Memtable.hydrate dec lines = Except.error ())
      ∧ ((∀ l ∈ lines, dec l ≠ none) →
          Memtable.hydrate dec lines = Except.ok (Memtable.ofPuts (lines.filterMap dec))) := by
  intro α dec lines
  constructor
  · intro h
    simp [Memtable.hydrate, hydrateGo_error_of_mem_none dec lines [] h]
  · intro h
    simp only [Memtable.hydrate, hydrateGo_ok_of_all_some dec lines [] h, Memtable.ofPuts]
    rw [← memtable_foldl_data (lines.filterMap dec) []]

/-- C4 amended witness: a log consisting of one unparsable line aborts
replay. -/
theorem replay_aborts_on_any_parse_failure_witness :
    Memtable.hydrate decOpt [(none : Option Put)] = Except.error () :=
  (replay_aborts_on_any_parse_failure decOpt [none]).1 ⟨none, by simp, rfl⟩

/-- C5 counterexample: the claimed durable-effect order ends with a sync
of the descriptor file; the trace of a concrete construction contains no
descriptor sync, so the claimed order does not occur in it. -/
theorem descriptor_sync_missing :
    claimedDurabilityOrder constructTraceSample = false := by decide

/-- C5 amended: construction's durable effects are, in order, the
per-record data-file writes, the data-file flush and sync, the index
write and sync, and finally the descriptor write; the descriptor file is
written last but never synced. -/
theorem construct_effect_order :
    ∀ (dir : List String) (now : Nat) (data : List (Bytes × Bytes)),
      (SSTable.construct dir now data).2
        = data.map (fun _ => FsEvent.writeData)
          ++ [FsEvent.flushData, FsEvent.syncData, FsEvent.writeIndex,
              FsEvent.syncIndex, FsEvent.writeMeta]
      ∧ FsEvent.syncMeta ∉ (SSTable.construct dir now data).2 := by
  intro dir now data
  have he : (SSTable.construct dir now data).2
      = data.map (fun _ => FsEvent.writeData)
        ++ [FsEvent.flushData, FsEvent.syncData, FsEvent.writeIndex,
            FsEvent.syncIndex, FsEvent.writeMeta] := by
    simp [SSTable.construct, constructLoop_events]
  refine ⟨he, ?_⟩
  rw [he]
  simp

/-- C6: the claim says `get` checks the memtable, then scans SSTables
newest-to-oldest, and with two SSTables sharing a key returns the newer
value.  Opening an engine over two overlapping SSTables does sort them
newest first (timestamps `[2, 1]`), but the scan hits the newer table's
floor-search underflow — the shared key `[5]` equals its first index key,
`binary_search` returns `Ok(0)`, and `0 - 1` underflows — so `get` panics
instead of returning the newer value `[10]`; the older table alone would
have served `[9]`. -/
theorem newest_first_scan_panics_on_shared_key :
    (Db.new ["d6"] diskTwoSSTables).toOption.map
        (fun db => (db.sstables.map fun s => s.meta.written_timestamp, Db.get db [5]))
      = some ([2, 1], GetResult.panic)
    ∧ SSTable.get sstOlder [5] = GetResult.found [9] := by
  refine ⟨by decide, by decide⟩

/-- C7: `construct` samples an index entry exactly at records 0, 16, 32, …
(the key together with the byte offset at which the record starts), the
sampled keys are strictly increasing whenever the input keys are, and for
the 100-record scenario the index has exactly the 7 entries for records
0, 16, 32, 48, 64, 80 and 96 (each record is 15 bytes, so offsets step by
240). -/
theorem construct_index_every_16th :
    (∀ data : List (Bytes × Bytes), constructIndex data = specIndex data)
    ∧ (∀ data : List (Bytes × Bytes),
        (data.map Prod.fst).Pairwise (fun a b => bytesCmp a b = Ordering.lt) →
        ((constructIndex data).map Prod.fst).Pairwise (fun a b => bytesCmp a b = Ordering.lt))
    ∧ constructIndex records100 =
        [(mkKey 0, 0), (mkKey 16, 240), (mkKey 32, 480), (mkKey 48, 720),
         (mkKey 64, 960), (mkKey 80, 1200), (mkKey 96, 1440)]
    ∧ (constructIndex records100).length = 7 := by
  have hspec : ∀ data : List (Bytes × Bytes), constructIndex data = specIndex data := by
    intro data
    simp [constructIndex, constructLoop_index, specIndex]
  refine ⟨hspec, ?_, by decide, by decide⟩
  intro data h
  rw [hspec data, specIndex]
  exact h.sublist (specIndexFrom_keys_sublist data 0 0)

/-- C7 witness: on a concrete strictly ascending input the sampled index
keys are strictly increasing. -/
theorem construct_index_every_16th_witness :
    ((constructIndex [([1], [9]), ([2], [8]), ([3], [7])]).map Prod.fst).Pairwise
      (fun a b => bytesCmp a b = Ordering.lt) :=
  construct_index_every_16th.2.1 [([1], [9]), ([2], [8]), ([3], [7])] (by decide)

/-- C8: the data file is exactly the concatenation of the length-prefixed
records (4-byte big-endian key length, key, 4-byte big-endian value
length, value, no padding) — shown in general and on the one-record table,
whose file is the expected 10 bytes.  The round-trip half of the claim
fails: reading back the very first input key hits the floor-search
underflow (`binary_search` returns `Ok(0)`, `0 - 1` underflows), so `get`
panics instead of returning the stored value `[2]`. -/
theorem data_file_layout_roundtrip_panics :
    (∀ (dir : List String) (now : Nat) (data : List (Bytes × Bytes)),
        (SSTable.construct dir now data).1.data = (data.map encRecord).flatten)
    ∧ sstSingle.data = [0, 0, 0, 1, 1, 0, 0, 0, 1, 2]
    ∧ SSTable.get sstSingle [1] = GetResult.panic := by
  refine ⟨?_, by decide, by decide⟩
  intro dir now data
  simp [SSTable.construct, constructLoop_bytes]

/-- C9: hydrating from a WAL holding an encoded put sequence yields
exactly the memtable obtained by applying the same puts directly in the
same order, and in that memtable each key maps to the value of the
chronologically last put for it. -/
theorem hydrate_equals_direct_puts :
    ∀ {α : Type} (enc : Put → α) (dec : α → Option Put),
      (∀ p, dec (enc p) = some p) →
      ∀ (ps : List Put),
        Memtable.hydrate dec (ps.map enc) = Except.ok (Memtable.ofPuts ps)
        ∧ ∀ key, (Memtable.ofPuts ps).get key = lastPutValue ps key := by
  intro α enc dec hrt ps
  constructor
  · simp [Memtable.hydrate, hydrateGo_map_enc enc dec hrt ps [], Memtable.ofPuts]
  · intro key
    have h := mtLookup_foldl_put ps [] key
    simpa [Memtable.get, Memtable.ofPuts, lastPutValue, mtLookup] using h

/-- C9 witness: two puts to the same key, WAL-replayed and direct, agree,
and the key maps to the later value. -/
theorem hydrate_equals_direct_puts_witness :
    Memtable.hydrate decOpt (putsSample.map fun p => some p)
        = Except.ok (Memtable.ofPuts putsSample)
    ∧ ∀ key, (Memtable.ofPuts putsSample).get key = lastPutValue putsSample key :=
  hydrate_equals_direct_puts (fun p => some p) decOpt (fun _ => rfl) putsSample

/-- C10: whatever directory the engine was opened with, `flush_memtable`
passes the string literal `"db"` to `SSTable::construct`, so the new
SSTable's data, index and descriptor files live under the fixed relative
directory `db`, while the rotated WAL `log-<now>` is created under the
engine's own directory. -/
theorem flush_builds_sstable_under_literal_db_dir :
    ∀ (engine : Db) (now : Nat) (freshLog : List Put),
      (engine.flush_memtable now freshLog).2.1.meta.data_path = ["db", toString now ++ ".sst"]
      ∧ (engine.flush_memtable now freshLog).2.1.meta.index_path = ["db", toString now ++ ".idx"]
      ∧ (engine.flush_memtable now freshLog).2.1.meta.meta_path = ["db", toString now ++ ".meta"]
      ∧ (engine.flush_memtable now freshLog).1.logPath
          = engine.dir ++ ["log-" ++ toString now] := by
  intro engine now freshLog
  refine ⟨rfl, rfl, rfl, ?_⟩
  simp [Db.flush_memtable, Db.get_filename]

end NullDb
